import Mathlib

/-!
Verification development for the mcp-rest-api request-testing server.

The embedding below translates the relevant parts of `src/index.ts` (the
stricter server variant) and of the second server variant (the unnamed
source file with the dynamic token provider) into Lean definitions.
JavaScript strings are modelled as lists of characters (`Str`), JavaScript
objects used as string-to-string maps as association lists in insertion
order (`Headers`), and the UTF-16 code units that `String.prototype.slice`
and `Buffer.byteLength` operate on as natural numbers.
-/

namespace McpRestApi

/-- JavaScript strings, modelled as lists of characters. -/
abbrev Str := List Char

/-- Shorthand for turning a Lean string literal into the model type. -/
def str (s : String) : Str := s.data

/-- JavaScript `toLowerCase`, restricted to the ASCII range used by the
header names in this code base. -/
def lowerStr (s : Str) : Str := s.map Char.toLower

/-- Header maps: JavaScript objects in insertion order. -/
abbrev Headers := List (Str × Str)

/-- `Object.keys` of a header map. -/
def keysOf (h : Headers) : List Str := h.map Prod.fst

/-- JavaScript truthiness of an optional environment string: set and
non-empty. -/
def truthy : Option Str → Bool
  | none => false
  | some s => !s.isEmpty

/-- `CONFIG.SAFE_HEADERS` from src/index.ts lines 30-40. -/
def SAFE_HEADERS : List Str :=
  [str "accept", str "accept-language", str "content-type", str "user-agent",
   str "cache-control", str "if-match", str "if-none-match",
   str "if-modified-since", str "if-unmodified-since"]

/-- `CONFIG.SENSITIVE_HEADERS` from src/index.ts lines 42-50. -/
def SENSITIVE_HEADERS : List Str :=
  [str "authorization", str "cookie", str "set-cookie", str "x-api-key",
   str "x-auth-token", str "proxy-authorization", str "www-authenticate"]

/-- The redaction marker substituted for sensitive header values. -/
def REDACTED : Str := str "[REDACTED]"

/-- The part of the process configuration read by `sanitizeHeaders`:
`AUTH.APIKEY_HEADER_NAME` and the memoized result of `getCustomHeaders()`. -/
structure SanCfg where
  apikeyHeaderName : Option Str
  customHeaders : Headers
deriving DecidableEq

/-- Membership of the lower-cased name in `CONFIG.SENSITIVE_HEADERS`. -/
def isSensitiveB (k : Str) : Bool := SENSITIVE_HEADERS.contains (lowerStr k)

/-- Membership of the lower-cased name in `CONFIG.SAFE_HEADERS`. -/
def isSafeB (k : Str) : Bool := SAFE_HEADERS.contains (lowerStr k)

/-- The authentication-header test of src/index.ts lines 263-266:
lower-cased name is `authorization`, or the configured API-key header name
is truthy and matches the lower-cased name. -/
def isAuthKeyB (cfg : SanCfg) (k : Str) : Bool :=
  lowerStr k == str "authorization" ||
    (match cfg.apikeyHeaderName with
     | some n => !n.isEmpty && (lowerStr k == lowerStr n)
     | none => false)

/-- The JavaScript `key in customHeaders` test (case-sensitive). -/
def isCustomB (cfg : SanCfg) (k : Str) : Bool :=
  (keysOf cfg.customHeaders).contains k

/-- One iteration of the `for` loop of `sanitizeHeaders`
(src/index.ts lines 247-277): the entry is kept (possibly redacted) or
dropped. The branch order matches the source: sensitive set first, then
the caller-supplied pass-through, then authentication headers, then the
custom-header allow-list, and otherwise omission. -/
def sanitizeEntry (cfg : SanCfg) (isOpt : Bool) (kv : Str × Str) :
    Option (Str × Str) :=
  if isSensitiveB kv.1 then some (kv.1, REDACTED)
  else if isOpt then some kv
  else if isAuthKeyB cfg kv.1 then some (kv.1, REDACTED)
  else if isCustomB cfg kv.1 then
    some (kv.1, if isSafeB kv.1 then kv.2 else REDACTED)
  else none

/-- The loop body of `sanitizeHeaders` applied to every entry: the
uncached reference computation of the sanitization rules. -/
def sanitizeHeadersPure (cfg : SanCfg) (h : Headers) (isOpt : Bool) :
    Headers :=
  h.filterMap (sanitizeEntry cfg isOpt)

/-- `Object.keys(headers).join(",")` used as the cache key
(src/index.ts line 238). -/
def joinKeys : List Str → Str
  | [] => []
  | [k] => k
  | k :: ks => k ++ ',' :: joinKeys ks

/-- `Map.prototype.get` on the sanitized-headers cache. -/
def findVal (k : Str) : List (Str × Headers) → Option Headers
  | [] => none
  | (k2, r) :: rest => if k = k2 then some r else findVal k rest

/-- `sanitizeHeaders` from src/index.ts lines 236-285, with the module
level `sanitizedHeadersCache` threaded explicitly: returns the sanitized
mapping and the cache after the call. Lookup and store happen only for
non-caller-supplied calls, and a store only while the cache holds fewer
than 100 entries. -/
def sanitizeHeadersCached (cfg : SanCfg) (cache : List (Str × Headers))
    (h : Headers) (isOpt : Bool) : Headers × List (Str × Headers) :=
  let key := if isOpt then str "optional_" ++ joinKeys (keysOf h)
             else joinKeys (keysOf h)
  match (if isOpt then none else findVal key cache) with
  | some r => (r, cache)
  | none =>
      let s := sanitizeHeadersPure cfg h isOpt
      if isOpt = false ∧ cache.length < 100 then (s, cache ++ [(key, s)])
      else (s, cache)

theorem sanitizeEntry_idem (cfg : SanCfg) (isOpt : Bool) (kv kv2 : Str × Str)
    (h : sanitizeEntry cfg isOpt kv = some kv2) :
    sanitizeEntry cfg isOpt kv2 = some kv2 := by
  obtain ⟨k, v⟩ := kv
  unfold sanitizeEntry at h ⊢
  by_cases hs : isSensitiveB k
  · simp [hs] at h
    subst h
    simp [hs]
  · by_cases ho : isOpt
    · simp [hs, ho] at h
      subst h
      simp [hs, ho]
    · by_cases ha : isAuthKeyB cfg k
      · simp [hs, ho, ha] at h
        subst h
        simp [hs, ho, ha]
      · by_cases hc : isCustomB cfg k
        · simp [hs, ho, ha, hc] at h
          by_cases hsafe : isSafeB k
          · simp [hsafe] at h
            subst h
            simp [hs, ho, ha, hc, hsafe]
          · simp [hsafe] at h
            subst h
            simp [hs, ho, ha, hc, hsafe]
        · simp [hs, ho, ha, hc] at h

theorem sanitizeHeadersPure_idem (cfg : SanCfg) (h : Headers) (isOpt : Bool) :
    sanitizeHeadersPure cfg (sanitizeHeadersPure cfg h isOpt) isOpt =
      sanitizeHeadersPure cfg h isOpt := by
  induction h with
  | nil => rfl
  | cons kv t ih =>
      unfold sanitizeHeadersPure at ih ⊢
      rw [List.filterMap_cons]
      cases hg : sanitizeEntry cfg isOpt kv with
      | none => simpa using ih
      | some kv2 =>
          rw [List.filterMap_cons, sanitizeEntry_idem cfg isOpt kv kv2 hg]
          simpa using ih

theorem sanitizeHeadersPure_true_eq_map (cfg : SanCfg) (h : Headers) :
    sanitizeHeadersPure cfg h true =
      h.map (fun kv => (kv.1, if isSensitiveB kv.1 then REDACTED else kv.2)) := by
  induction h with
  | nil => rfl
  | cons kv t ih =>
      unfold sanitizeHeadersPure at ih ⊢
      by_cases hs : isSensitiveB kv.1
      · simp [List.filterMap_cons, sanitizeEntry, hs, ih]
      · simp [List.filterMap_cons, sanitizeEntry, hs, ih]

/-- Claim C5: with `isCallerSupplied = true`, every header whose
lower-cased name is in the fixed sensitive set maps to the redaction
marker and every other header passes through with its value unchanged;
the cache is neither read nor written. -/
theorem c5_caller_supplied_redaction (cfg : SanCfg)
    (cache : List (Str × Headers)) (h : Headers) :
    sanitizeHeadersCached cfg cache h true =
      (h.map (fun kv => (kv.1, if isSensitiveB kv.1 then REDACTED else kv.2)),
        cache) := by
  simp [sanitizeHeadersCached, sanitizeHeadersPure_true_eq_map]

/-- Claim C8: sanitizing an already-sanitized mapping again yields the
same mapping, for both flag values, in the stateful semantics starting
from the empty cache. -/
theorem c8_sanitize_idempotent (cfg : SanCfg) (h : Headers) (f : Bool) :
    (sanitizeHeadersCached cfg (sanitizeHeadersCached cfg [] h f).2
        (sanitizeHeadersCached cfg [] h f).1 f).1 =
      (sanitizeHeadersCached cfg [] h f).1 := by
  cases f with
  | true => simp [sanitizeHeadersCached, sanitizeHeadersPure_idem]
  | false =>
      by_cases hk :
          joinKeys (keysOf (sanitizeHeadersPure cfg h false)) =
            joinKeys (keysOf h)
      · simp [sanitizeHeadersCached, findVal, hk]
      · simp [sanitizeHeadersCached, findVal, hk, sanitizeHeadersPure_idem]

/-- Header names as the validator admits them: non-empty and comma-free,
so that the comma-join used as the cache key is unambiguous. -/
def goodKeyB (k : Str) : Bool := !k.isEmpty && k.all (fun c => !(c == ','))

/-- All names of the map are non-empty and comma-free. -/
def goodKeysB (h : Headers) : Bool := (keysOf h).all goodKeyB

/-- No name of the map is simultaneously a configured custom header and a
member of the safe allow-list; for such maps the sanitized output of a
non-caller-supplied call carries no header value through. -/
def noSafeCustomB (cfg : SanCfg) (h : Headers) : Bool :=
  (keysOf h).all (fun k => !(isCustomB cfg k && isSafeB k))

/-- Every cache entry is the sanitization of some earlier map with
non-empty comma-free names, stored under the comma-join of its names. -/
def CacheOK (cfg : SanCfg) (c : List (Str × Headers)) : Prop :=
  ∀ e ∈ c, ∃ h2, goodKeysB h2 = true ∧ e.1 = joinKeys (keysOf h2) ∧
    e.2 = sanitizeHeadersPure cfg h2 false

theorem findVal_mem (k : Str) (c : List (Str × Headers)) (r : Headers)
    (h : findVal k c = some r) : (k, r) ∈ c := by
  induction c with
  | nil => simp [findVal] at h
  | cons e rest ih =>
      obtain ⟨k2, r2⟩ := e
      by_cases hk : k = k2
      · simp [findVal, hk] at h
        simp [hk, h]
      · simp [findVal, hk] at h
        exact List.mem_cons_of_mem _ (ih h)

theorem append_comma_eq : ∀ (k m a b : Str), (∀ c ∈ k, ¬ c = ',') →
    (∀ c ∈ m, ¬ c = ',') → k ++ ',' :: a = m ++ ',' :: b →
    k = m ∧ a = b := by
  intro k
  induction k with
  | nil =>
      intro m a b _ hm h
      cases m with
      | nil => simpa using h
      | cons d ms =>
          simp only [List.nil_append, List.cons_append, List.cons.injEq] at h
          exact absurd h.1.symm (hm d (List.mem_cons_self d ms))
  | cons c ks ih =>
      intro m a b hk hm h
      cases m with
      | nil =>
          simp only [List.cons_append, List.nil_append, List.cons.injEq] at h
          exact absurd h.1 (hk c (List.mem_cons_self c ks))
      | cons d ms =>
          simp only [List.cons_append, List.cons.injEq] at h
          obtain ⟨hcd, hrest⟩ := h
          have := ih ms a b (fun x hx => hk x (List.mem_cons_of_mem c hx))
            (fun x hx => hm x (List.mem_cons_of_mem d hx)) hrest
          exact ⟨by rw [hcd, this.1], this.2⟩

theorem goodKeyB_parts (k : Str) (h : goodKeyB k = true) :
    k ≠ [] ∧ ∀ c ∈ k, ¬ c = ',' := by
  unfold goodKeyB at h
  simp only [Bool.and_eq_true, List.all_eq_true] at h
  constructor
  · intro hc
    subst hc
    simp at h
  · intro c hc
    have := h.2 c hc
    simpa using this

theorem comma_mem_append (m r : Str) : ',' ∈ m ++ ',' :: r :=
  List.mem_append_right m (List.mem_cons_self _ _)

theorem joinKeys_inj : ∀ (l1 l2 : List Str),
    (∀ k ∈ l1, goodKeyB k = true) → (∀ k ∈ l2, goodKeyB k = true) →
    joinKeys l1 = joinKeys l2 → l1 = l2 := by
  intro l1
  induction l1 with
  | nil =>
      intro l2 _ h2 h
      cases l2 with
      | nil => rfl
      | cons m ms =>
          exfalso
          have hm := (goodKeyB_parts m (h2 m (List.mem_cons_self m ms))).1
          cases ms with
          | nil => exact hm (by simpa [joinKeys] using h.symm)
          | cons m2 ms2 =>
              have : ([] : Str) = m ++ ',' :: joinKeys (m2 :: ms2) := by
                simpa [joinKeys] using h
              cases m with
              | nil => exact hm rfl
              | cons c cs => simp at this
  | cons k ks ih =>
      intro l2 h1 h2 h
      have hk1 : goodKeyB k = true := h1 k (List.mem_cons_self k ks)
      cases l2 with
      | nil =>
          exfalso
          have hk := (goodKeyB_parts k hk1).1
          cases ks with
          | nil => exact hk (by simpa [joinKeys] using h)
          | cons k2 ks2 =>
              have : k ++ ',' :: joinKeys (k2 :: ks2) = ([] : Str) := by
                simpa [joinKeys] using h
              cases k with
              | nil => exact hk rfl
              | cons c cs => simp at this
      | cons m ms =>
          have hm1 : goodKeyB m = true := h2 m (List.mem_cons_self m ms)
          cases ks with
          | nil =>
              cases ms with
              | nil => simpa [joinKeys] using h
              | cons m2 ms2 =>
                  exfalso
                  have hjk : k = m ++ ',' :: joinKeys (m2 :: ms2) := by
                    simpa [joinKeys] using h
                  have := (goodKeyB_parts k hk1).2 ','
                    (hjk ▸ comma_mem_append m _)
                  exact this rfl
          | cons k2 ks2 =>
              cases ms with
              | nil =>
                  exfalso
                  have hjk : k ++ ',' :: joinKeys (k2 :: ks2) = m := by
                    simpa [joinKeys] using h
                  have := (goodKeyB_parts m hm1).2 ','
                    (hjk ▸ comma_mem_append k _)
                  exact this rfl
              | cons m2 ms2 =>
                  have hjk : k ++ ',' :: joinKeys (k2 :: ks2) =
                      m ++ ',' :: joinKeys (m2 :: ms2) := by
                    simpa [joinKeys] using h
                  have hkm := append_comma_eq k m _ _
                    ((goodKeyB_parts k hk1).2) ((goodKeyB_parts m hm1).2) hjk
                  have htail := ih (m2 :: ms2)
                    (fun x hx => h1 x (List.mem_cons_of_mem k hx))
                    (fun x hx => h2 x (List.mem_cons_of_mem m hx))
                    hkm.2
                  rw [hkm.1, htail]

theorem sanitizeEntry_keys_det (cfg : SanCfg) (k v1 v2 : Str)
    (h : (!(isCustomB cfg k && isSafeB k)) = true) :
    sanitizeEntry cfg false (k, v1) = sanitizeEntry cfg false (k, v2) := by
  unfold sanitizeEntry
  by_cases hs : isSensitiveB k
  · simp [hs]
  · by_cases ha : isAuthKeyB cfg k
    · simp [hs, ha]
    · by_cases hc : isCustomB cfg k
      · by_cases hsafe : isSafeB k
        · simp [hc, hsafe] at h
        · simp [hs, ha, hc, hsafe]
      · simp [hs, ha, hc]

theorem sanitizeHeadersPure_keys_det (cfg : SanCfg) :
    ∀ (h1 h2 : Headers), keysOf h1 = keysOf h2 →
    noSafeCustomB cfg h1 = true →
    sanitizeHeadersPure cfg h1 false = sanitizeHeadersPure cfg h2 false := by
  intro h1
  induction h1 with
  | nil =>
      intro h2 hk _
      cases h2 with
      | nil => rfl
      | cons kv t => simp [keysOf] at hk
  | cons kv t ih =>
      intro h2 hk hns
      cases h2 with
      | nil => simp [keysOf] at hk
      | cons kv2 t2 =>
          obtain ⟨k1, v1⟩ := kv
          obtain ⟨k2, v2⟩ := kv2
          simp only [keysOf, List.map_cons, List.cons.injEq] at hk
          obtain ⟨hkk, hkt⟩ := hk
          subst hkk
          unfold noSafeCustomB keysOf at hns
          simp only [List.map_cons, List.all_cons, Bool.and_eq_true] at hns
          have hnst : noSafeCustomB cfg t = true := by
            unfold noSafeCustomB keysOf
            exact hns.2
          unfold sanitizeHeadersPure at ih ⊢
          rw [List.filterMap_cons, List.filterMap_cons,
            sanitizeEntry_keys_det cfg k1 v1 v2 hns.1, ih t2 hkt hnst]

theorem noSafeCustomB_keys_det (cfg : SanCfg) (h1 h2 : Headers)
    (hk : keysOf h1 = keysOf h2) :
    noSafeCustomB cfg h1 = noSafeCustomB cfg h2 := by
  unfold noSafeCustomB
  rw [hk]

/-- Claim C4 counterexample: with a configured custom header `Accept`
(whose lower-cased name is on the safe allow-list), the cache — keyed
only by the header names — returns the value of an earlier call for a
later map with the same name but a different value, so the cached result
differs from the uncached reference computation. -/
theorem c4_cache_observable_cex :
    (sanitizeHeadersCached ⟨none, [(str "Accept", str "x")]⟩
        (sanitizeHeadersCached ⟨none, [(str "Accept", str "x")]⟩ []
          [(str "Accept", str "a")] false).2
        [(str "Accept", str "b")] false).1 ≠
      sanitizeHeadersPure ⟨none, [(str "Accept", str "x")]⟩
        [(str "Accept", str "b")] false := by decide

/-- Claim C4 amended: the cache is transparent only conditionally — when
every cache entry is the stored sanitization of an earlier map with
non-empty comma-free names, the names of the present map are non-empty
and comma-free, and no name of the present map is both a configured
custom header and on the safe allow-list (so the output depends only on
the names), a non-caller-supplied call returns exactly the uncached
reference computation. -/
theorem c4_cache_transparent_amended (cfg : SanCfg)
    (ccache : List (Str × Headers)) (h : Headers)
    (hok : CacheOK cfg ccache) (hg : goodKeysB h = true)
    (hns : noSafeCustomB cfg h = true) :
    (sanitizeHeadersCached cfg ccache h false).1 =
      sanitizeHeadersPure cfg h false := by
  unfold sanitizeHeadersCached
  cases hfv : findVal (joinKeys (keysOf h)) ccache with
  | none =>
      simp [hfv]
      split <;> rfl
  | some r =>
      obtain ⟨h2, hg2, hkey, hval⟩ := hok _ (findVal_mem _ _ _ hfv)
      have hkey2 : joinKeys (keysOf h) = joinKeys (keysOf h2) := hkey
      have hval2 : r = sanitizeHeadersPure cfg h2 false := hval
      have hkeys : keysOf h2 = keysOf h := by
        refine joinKeys_inj (keysOf h2) (keysOf h) ?_ ?_ hkey2.symm
        · intro k hk
          unfold goodKeysB at hg2
          exact (List.all_eq_true.mp hg2) k hk
        · intro k hk
          unfold goodKeysB at hg
          exact (List.all_eq_true.mp hg) k hk
      have hns2 : noSafeCustomB cfg h2 = true := by
        rw [noSafeCustomB_keys_det cfg h2 h hkeys]
        exact hns
      have hr : r = sanitizeHeadersPure cfg h false :=
        hval2.trans (sanitizeHeadersPure_keys_det cfg h2 h hkeys hns2)
      simp [hfv, hr]

/-- Witness for the amended claim C4 at a concrete input. -/
theorem c4_cache_transparent_witness :
    CacheOK ⟨none, []⟩ [] ∧
    goodKeysB [(str "X-Foo", str "1")] = true ∧
    noSafeCustomB ⟨none, []⟩ [(str "X-Foo", str "1")] = true ∧
    (sanitizeHeadersCached ⟨none, []⟩ [] [(str "X-Foo", str "1")] false).1 =
      sanitizeHeadersPure ⟨none, []⟩ [(str "X-Foo", str "1")] false :=
  ⟨fun e he => absurd he (List.not_mem_nil e), by decide, by decide,
    c4_cache_transparent_amended ⟨none, []⟩ [] [(str "X-Foo", str "1")]
      (fun e he => absurd he (List.not_mem_nil e)) (by decide) (by decide)⟩

/-!
Response size limiting (src/index.ts lines 965-997). JavaScript strings
are sequences of UTF-16 code units; `slice(0, -1)` removes the last code
unit and `Buffer.byteLength(s, "utf8")` measures the UTF-8 encoding,
encoding each unpaired surrogate as the 3-byte replacement character.
-/

/-- `Buffer.byteLength(s, "utf8")` over a list of UTF-16 code units:
ASCII is 1 byte, code units below 0x800 are 2 bytes, a high surrogate
followed by a low surrogate forms one 4-byte astral character, an
unpaired surrogate becomes the 3-byte replacement character, and every
other code unit is 3 bytes. -/
def utf8Len : List Nat → Nat
  | [] => 0
  | u :: rest =>
      if u < 0x80 then 1 + utf8Len rest
      else if u < 0x800 then 2 + utf8Len rest
      else if 0xD800 ≤ u ∧ u ≤ 0xDBFF then
        match rest with
        | u2 :: rest2 =>
            if 0xDC00 ≤ u2 ∧ u2 ≤ 0xDFFF then 4 + utf8Len rest2
            else 3 + utf8Len (u2 :: rest2)
        | [] => 3
      else 3 + utf8Len rest

/-- The `while (currentSize > RESPONSE_SIZE_LIMIT && truncated.length > 0)`
loop of src/index.ts lines 982-985, with explicit fuel. Each iteration
drops the last UTF-16 code unit (`slice(0, -1)`) and re-measures; the
fuel equals the string length at entry, which bounds the iteration count
of the source loop, so the two agree. -/
def truncateLoopFuel (limit : Nat) : Nat → List Nat → List Nat
  | 0, s => s
  | fuel + 1, s =>
      if utf8Len s > limit ∧ s ≠ [] then truncateLoopFuel limit fuel s.dropLast
      else s

/-- The truncation loop of src/index.ts lines 979-985. -/
def truncateLoop (limit : Nat) (s : List Nat) : List Nat :=
  truncateLoopFuel limit s.length s

/-- The `validation.truncated` record (src/index.ts lines 991-996). -/
structure TruncInfo where
  originalSize : Nat
  returnedSize : Nat
  truncationPoint : Nat
  sizeLimit : Nat
deriving DecidableEq

/-- A response body as axios delivers it: either a string or a structured
(non-string) value of some type `α` that `JSON.stringify` serializes. -/
inductive BodyVal (α : Type) where
  | json (j : α)
  | str (s : List Nat)
deriving DecidableEq

/-- `typeof response.data === "string" ? response.data :
JSON.stringify(response.data)` (src/index.ts lines 969-975); the
serializer is a parameter standing for the JavaScript built-in
`JSON.stringify`. -/
def bodyStrOf {α : Type} (stringify : α → List Nat) : BodyVal α → List Nat
  | .json j => stringify j
  | .str s => s

/-- The size check and truncation step of the response normalizer
(src/index.ts lines 965-997): returns the body placed in the envelope and
the optional `validation.truncated` record. -/
def applySizeLimit {α : Type} (stringify : α → List Nat) (limit : Nat)
    (data : BodyVal α) : BodyVal α × Option TruncInfo :=
  let bodyStr := bodyStrOf stringify data
  let bodySize := utf8Len bodyStr
  if bodySize > limit then
    let t := truncateLoop limit bodyStr
    (.str t, some ⟨bodySize, utf8Len t, utf8Len t, limit⟩)
  else (data, none)

/-- The code-unit sequence contains no surrogate, i.e. every character of
the body lies in the basic multilingual plane. -/
def noSurrogatesB (s : List Nat) : Bool :=
  s.all (fun u => !(decide (0xD800 ≤ u ∧ u ≤ 0xDFFF)))

/-- Well-formed UTF-16: every high surrogate is immediately followed by a
low surrogate and no low surrogate appears unpaired, i.e. the sequence is
a whole number of characters. -/
def wellFormed16 : List Nat → Bool
  | [] => true
  | [u] => !(decide (0xD800 ≤ u ∧ u ≤ 0xDFFF))
  | u :: u2 :: rest =>
      if 0xD800 ≤ u ∧ u ≤ 0xDBFF then
        decide (0xDC00 ≤ u2 ∧ u2 ≤ 0xDFFF) && wellFormed16 rest
      else
        !(decide (0xD800 ≤ u ∧ u ≤ 0xDFFF)) && wellFormed16 (u2 :: rest)

theorem truncateLoopFuel_le (limit : Nat) :
    ∀ (fuel : Nat) (s : List Nat), s.length ≤ fuel →
      utf8Len (truncateLoopFuel limit fuel s) ≤ limit ∨
        truncateLoopFuel limit fuel s = s ∧ ¬ utf8Len s > limit := by
  intro fuel
  induction fuel with
  | zero =>
      intro s hs
      have h0 : s = [] := List.length_eq_zero.mp (Nat.le_zero.mp hs)
      subst h0
      right
      exact ⟨rfl, by simp [utf8Len]⟩
  | succ n ih =>
      intro s hs
      unfold truncateLoopFuel
      by_cases hc : utf8Len s > limit ∧ s ≠ []
      · rw [if_pos hc]
        have hlen : s.dropLast.length ≤ n := by
          have := List.length_dropLast s
          have hpos : 0 < s.length := List.length_pos.mpr hc.2
          omega
        rcases ih s.dropLast hlen with h | h
        · exact Or.inl h
        · exact Or.inl (by
            rw [h.1]
            exact Nat.le_of_not_lt h.2)
      · rw [if_neg hc]
        right
        refine ⟨rfl, ?_⟩
        intro hgt
        by_cases he : s = []
        · subst he
          simp [utf8Len] at hgt
        · exact hc ⟨hgt, he⟩

theorem truncateLoop_le (limit : Nat) (s : List Nat) :
    utf8Len (truncateLoop limit s) ≤ limit ∨ ¬ utf8Len s > limit := by
  rcases truncateLoopFuel_le limit s.length s (Nat.le_refl _) with h | h
  · exact Or.inl h
  · exact Or.inr h.2

theorem truncateLoopFuel_take (limit : Nat) :
    ∀ (fuel : Nat) (s : List Nat),
      ∃ n, truncateLoopFuel limit fuel s = s.take n ∧ n ≤ s.length := by
  intro fuel
  induction fuel with
  | zero =>
      intro s
      exact ⟨s.length, by simp [truncateLoopFuel]⟩
  | succ k ih =>
      intro s
      unfold truncateLoopFuel
      by_cases hc : utf8Len s > limit ∧ s ≠ []
      · rw [if_pos hc]
        obtain ⟨n, hn, hle⟩ := ih s.dropLast
        refine ⟨min n (s.length - 1), ?_, ?_⟩
        · rw [hn, List.dropLast_eq_take, List.take_take]
        · omega
      · rw [if_neg hc]
        exact ⟨s.length, by simp⟩

theorem truncateLoop_take (limit : Nat) (s : List Nat) :
    ∃ n, truncateLoop limit s = s.take n ∧ n ≤ s.length :=
  truncateLoopFuel_take limit s.length s

theorem noSurrogatesB_take (s : List Nat) (n : Nat)
    (h : noSurrogatesB s = true) : noSurrogatesB (s.take n) = true := by
  unfold noSurrogatesB at h ⊢
  rw [List.all_eq_true] at h ⊢
  intro u hu
  exact h u (List.mem_of_mem_take hu)

/-- Claim C2 amended: the size-limit step returns the body unmodified
with no truncation record when the byte size is within the limit, and
otherwise replaces the body with the result of trimming UTF-16 code
units (not always whole characters) from the end, whose byte length is
at most the limit; the truncation record carries the original byte size,
the actual returned byte size, the truncation point equal to the
returned size, and the configured limit. The returned body is a
code-unit prefix of the serialized body, and a body without astral
(surrogate-pair) characters is never split mid-character, but a
surrogate pair at the cut may be left as an unpaired surrogate. -/
theorem c2_truncation_amended {α : Type} (stringify : α → List Nat)
    (limit : Nat) (data : BodyVal α) :
    applySizeLimit stringify limit data =
      (if utf8Len (bodyStrOf stringify data) > limit then
        (.str (truncateLoop limit (bodyStrOf stringify data)),
          some ⟨utf8Len (bodyStrOf stringify data),
            utf8Len (truncateLoop limit (bodyStrOf stringify data)),
            utf8Len (truncateLoop limit (bodyStrOf stringify data)), limit⟩)
      else (data, none)) ∧
    utf8Len (truncateLoop limit (bodyStrOf stringify data)) ≤ limit ∧
    (∃ n, truncateLoop limit (bodyStrOf stringify data) =
      (bodyStrOf stringify data).take n) ∧
    (!noSurrogatesB (bodyStrOf stringify data) ||
      noSurrogatesB (truncateLoop limit (bodyStrOf stringify data))) =
        true := by
  refine ⟨rfl, ?_, ?_, ?_⟩
  · rcases truncateLoop_le limit (bodyStrOf stringify data) with h | h
    · exact h
    · obtain ⟨n, hn, _⟩ := truncateLoop_take limit (bodyStrOf stringify data)
      rcases truncateLoopFuel_le limit (bodyStrOf stringify data).length
        (bodyStrOf stringify data) (Nat.le_refl _) with h2 | h2
      · exact h2
      · unfold truncateLoop
        rw [h2.1]
        exact Nat.le_of_not_lt h2.2
  · obtain ⟨n, hn, _⟩ := truncateLoop_take limit (bodyStrOf stringify data)
    exact ⟨n, hn⟩
  · by_cases hs : noSurrogatesB (bodyStrOf stringify data) = true
    · obtain ⟨n, hn, _⟩ := truncateLoop_take limit (bodyStrOf stringify data)
      rw [hn]
      simp [noSurrogatesB_take _ _ hs]
    · simp [Bool.eq_false_iff.mpr hs]

/-- Claim C2 counterexample: the body consisting of the single astral
character U+1F600 (surrogate pair 0xD83D 0xDE00, 4 UTF-8 bytes) with a
3-byte limit is well-formed UTF-16, but the truncated body is the
unpaired high surrogate 0xD83D — the multi-byte character was split
mid-codepoint, refuting the whole-characters clause of the claim. -/
theorem c2_split_surrogate_cex :
    wellFormed16 [0xD83D, 0xDE00] = true ∧
    applySizeLimit (fun _ : Unit => []) 3 (BodyVal.str [0xD83D, 0xDE00]) =
      (BodyVal.str [0xD83D], some ⟨4, 3, 3, 3⟩) ∧
    wellFormed16 [0xD83D] = false := by decide

/-- Claim C10: when the response body is a non-string value, truncation
replaces the envelope body by a string that is a code-unit prefix of the
JSON serialization of the body, and when the serialized size is within
the limit the body keeps its original value and type. -/
theorem c10_nonstring_truncation {α : Type} (stringify : α → List Nat)
    (limit : Nat) (j : α) :
    applySizeLimit stringify limit (BodyVal.json j) =
      (if utf8Len (stringify j) > limit then
        (.str (truncateLoop limit (stringify j)),
          some ⟨utf8Len (stringify j), utf8Len (truncateLoop limit (stringify j)),
            utf8Len (truncateLoop limit (stringify j)), limit⟩)
      else (.json j, none)) ∧
    ∃ n, truncateLoop limit (stringify j) = (stringify j).take n := by
  refine ⟨rfl, ?_⟩
  obtain ⟨n, hn, _⟩ := truncateLoop_take limit (stringify j)
  exact ⟨n, hn⟩

/-!
The admission gate: class `RequestLimiter` of src/index.ts lines 539-624,
and the acquire/release discipline of the `test_request` handler
(src/index.ts lines 906-1009). Timestamps are integers (`Date.now()`).
-/

/-- The mutable fields and constructor parameters of `RequestLimiter`. -/
structure LimiterState where
  activeRequests : Nat
  maxConcurrent : Nat
  requestHistory : List (Str × List Int)
  maxRequestsPerWindow : Nat
  windowMs : Int
deriving DecidableEq

/-- `Map.prototype.get` on the request-history map. -/
def findIntList (k : Str) : List (Str × List Int) → Option (List Int)
  | [] => none
  | (k2, l) :: rest => if k = k2 then some l else findIntList k rest

/-- `Map.prototype.get` on the request history, `|| []`. -/
def historyOf (s : LimiterState) (clientId : Str) : List Int :=
  match findIntList clientId s.requestHistory with
  | some l => l
  | none => []

/-- `requestHistory.set(clientId, l)`: replace in place or append. -/
def historySet (s : LimiterState) (clientId : Str) (l : List Int) :
    LimiterState :=
  let newHist :=
    if (s.requestHistory.map Prod.fst).contains clientId then
      s.requestHistory.map (fun e => if e.1 = clientId then (e.1, l) else e)
    else s.requestHistory ++ [(clientId, l)]
  { s with requestHistory := newHist }

/-- `checkRateLimit` (src/index.ts lines 587-595): counts the requests of
the trailing window without writing the filtered list back. -/
def checkRateLimit (s : LimiterState) (now : Int) (clientId : Str) : Bool :=
  ((historyOf s clientId).filter
      (fun t => now - t < s.windowMs)).length < s.maxRequestsPerWindow

/-- `recordRequest` (src/index.ts lines 597-611): push the timestamp and
keep only the entries of the trailing window. -/
def recordRequest (s : LimiterState) (now : Int) (clientId : Str) :
    LimiterState :=
  historySet s clientId
    ((historyOf s clientId ++ [now]).filter (fun t => now - t < s.windowMs))

/-- The two failure modes of `acquire`. -/
inductive LimErr where
  | rateLimited
  | busy
deriving DecidableEq

/-- The outcome of one `acquire` call: the thrown error, or success. -/
inductive AcqOutcome where
  | err (e : LimErr)
  | ok
deriving DecidableEq

/-- `acquire` (src/index.ts lines 559-581) as a single call in isolation:
the rate check runs first; then, if every concurrency slot is taken and
no concurrent call releases one during the bounded polling wait, the
wait expires and the call fails Busy; otherwise the active count is
incremented and the request recorded. The limiter state is returned
alongside the outcome. -/
def acquireS (s : LimiterState) (now : Int) (clientId : Str) :
    AcqOutcome × LimiterState :=
  if checkRateLimit s now clientId = false then (.err .rateLimited, s)
  else if s.maxConcurrent ≤ s.activeRequests then (.err .busy, s)
  else
    (.ok,
      recordRequest { s with activeRequests := s.activeRequests + 1 }
        now clientId)

/-- `release` (src/index.ts lines 583-585): `Math.max(0, active - 1)`,
which is truncated subtraction on naturals. -/
def release (s : LimiterState) : LimiterState :=
  { s with activeRequests := s.activeRequests - 1 }

/-- Whether the awaited axios call resolves or rejects. -/
inductive TransportOutcome where
  | ok
  | err
deriving DecidableEq

/-- The acquire/release flow of the `test_request` handler
(src/index.ts lines 906-1009): `acquire` is awaited inside the `try`; on
the success path `release` runs after the transport call (line 915), and
the `catch` block (line 1009) runs `release` unconditionally — including
when the exception was thrown by `acquire` itself. Returns the final
limiter state, the number of `release()` calls made, and whether
`acquire` succeeded. -/
def handlerGate (s : LimiterState) (now : Int)
    (outcome : TransportOutcome) : LimiterState × Nat × Bool :=
  match acquireS s now (str "default") with
  | (.err _, s1) => (release s1, 1, false)
  | (.ok, s1) =>
      match outcome with
      | .ok => (release s1, 1, true)
      | .err => (release s1, 1, true)

/-- Claim C9: a failed admission is atomic — when `acquire` fails with
RateLimited or Busy, the limiter state (active count and request
history) is unchanged by the call, because the rate check never writes
its filtered list back and the record step runs only after both checks
pass. -/
theorem c9_failed_acquire_atomic (s : LimiterState) (now : Int)
    (clientId : Str) (e : LimErr)
    (h : (acquireS s now clientId).1 = .err e) :
    (acquireS s now clientId).2 = s := by
  unfold acquireS at h ⊢
  by_cases h1 : checkRateLimit s now clientId = false
  · rw [if_pos h1]
  · rw [if_neg h1] at h ⊢
    by_cases h2 : s.maxConcurrent ≤ s.activeRequests
    · rw [if_pos h2]
    · rw [if_neg h2] at h
      simp at h

/-- Witness for claim C9: a limiter whose window already holds
`maxRequestsPerWindow` recent requests rejects the call and is left
untouched. -/
theorem c9_failed_acquire_atomic_witness :
    (acquireS ⟨0, 10, [(str "default", [0, 0])], 2, 60000⟩ 0
        (str "default")).1 = .err .rateLimited ∧
    (acquireS ⟨0, 10, [(str "default", [0, 0])], 2, 60000⟩ 0
        (str "default")).2 = ⟨0, 10, [(str "default", [0, 0])], 2, 60000⟩ :=
  ⟨by decide,
    c9_failed_acquire_atomic ⟨0, 10, [(str "default", [0, 0])], 2, 60000⟩ 0
      (str "default") .rateLimited (by decide)⟩

/-- Claim C3 evaluated at the failing input: the rate window is full
(100 recorded requests) while another request is in flight
(activeRequests = 1); the `acquire` of the new call throws RateLimited, yet
the catch block of the handler calls `release()`, so the handler reports one
release for a failed acquire and drops the in-flight count of the other
call from 1 to 0. -/
theorem c3_release_without_acquire :
    handlerGate
        ⟨1, 10, [(str "default", List.replicate 100 0)], 100, 60000⟩ 0
        .ok =
      (⟨0, 10, [(str "default", List.replicate 100 0)], 100, 60000⟩, 1,
        false) := by decide

/-!
The dynamic token provider (`TokenProvider.getToken` in the second server
variant, lines 212-259). Times are epoch milliseconds; the JWT expiry
extractor `getJwtExpMs` (base64url plus JSON parsing of the payload) is
an external-format helper and is passed as a parameter.
-/

/-- The shared cache fields of `TokenProvider`: the cached token, its
expiry, and a pending shared acquisition (modelled by the value the
pending promise resolves to). -/
structure TokenState where
  token : Option Str
  tokenExpiresAt : Option Int
  inflight : Option Str
deriving DecidableEq

/-- `getToken(forceRefresh, options)` as one completed call: `acquired`
stands for the value `acquireToken(options)` resolves to. Per-call
options are a distinct auth context: when they are a non-empty object
the cached token is not returned, a pending shared acquisition is not
joined, and the token, expiry and inflight fields are left untouched;
otherwise the shared cache is consulted and, on a fresh acquisition,
updated (the inflight marker is cleared again by the `finally` once the
acquisition completes). -/
def getTokenModel (expOf : Str → Option Int) (s : TokenState)
    (forceRefresh : Bool) (options : Option (List (Str × Str)))
    (now : Int) (acquired : Str) : Str × TokenState :=
  let hasRequestOptions :=
    match options with
    | some l => !l.isEmpty
    | none => false
  let isValid :=
    truthy s.token ∧
      (s.tokenExpiresAt = none ∨
        ∃ e, s.tokenExpiresAt = some e ∧ now < e - 60000)
  if forceRefresh = false ∧ hasRequestOptions = false ∧ isValid then
    (s.token.getD [], s)
  else if forceRefresh = false ∧ hasRequestOptions = false ∧
      s.inflight.isSome then
    (s.inflight.getD [], s)
  else if hasRequestOptions then (acquired, s)
  else
    (acquired,
      { token := some acquired, tokenExpiresAt := expOf acquired,
        inflight := none })

/-- Claim C7: a `getToken` call carrying non-empty per-call options
neither reads nor writes the shared token cache — the result is the
freshly acquired token (never the cached one, never a joined in-flight
acquisition) and the token, expiry and inflight fields are unchanged. -/
theorem c7_options_bypass_cache (expOf : Str → Option Int)
    (s : TokenState) (forceRefresh : Bool) (opts : List (Str × Str))
    (now : Int) (acquired : Str) (hne : opts ≠ []) :
    getTokenModel expOf s forceRefresh (some opts) now acquired =
      (acquired, s) := by
  have hb : (!opts.isEmpty) = true := by
    cases opts with
    | nil => exact absurd rfl hne
    | cons a t => rfl
  unfold getTokenModel
  simp [hb]

/-- Witness for claim C7 at a concrete input: options `{a: b}`, a cache
holding a different valid token, and a pending inflight value. -/
theorem c7_options_bypass_cache_witness :
    [(str "a", str "b")] ≠ ([] : List (Str × Str)) ∧
    getTokenModel (fun _ => none)
        ⟨some (str "cached"), none, some (str "pending")⟩ false
        (some [(str "a", str "b")]) 0 (str "fresh") =
      (str "fresh", ⟨some (str "cached"), none, some (str "pending")⟩) :=
  ⟨by decide,
    c7_options_bypass_cache (fun _ => none)
      ⟨some (str "cached"), none, some (str "pending")⟩ false
      [(str "a", str "b")] 0 (str "fresh") (by decide)⟩

/-!
The authentication resolver of the second server variant: the
header-injection chain (lines 557-579) and the `authMethod` chain of the
response envelope (lines 587-591). The first variant (src/index.ts lines
897-904 and 932-935) is the same chain without the dynamic branch. The
base64 credential string produced by `Buffer.from(user:pass)` and the
token returned by the provider are parameters.
-/

/-- The authentication environment variables. -/
structure AuthCfg where
  basicUsername : Option Str
  basicPassword : Option Str
  bearer : Option Str
  apikeyHeaderName : Option Str
  apikeyValue : Option Str
  tokenModule : Option Str
deriving DecidableEq

/-- `hasBasicAuth()`: both username and password truthy. -/
def hasBasicAuth (cfg : AuthCfg) : Bool :=
  truthy cfg.basicUsername && truthy cfg.basicPassword

/-- `hasBearerAuth()`. -/
def hasBearerAuth (cfg : AuthCfg) : Bool := truthy cfg.bearer

/-- `hasApiKeyAuth()`: both header name and value truthy. -/
def hasApiKeyAuth (cfg : AuthCfg) : Bool :=
  truthy cfg.apikeyHeaderName && truthy cfg.apikeyValue

/-- `hasDynamicBearerAuth()`: a token-provider module is configured, in
which case `this.tokenProvider` is constructed at setup. -/
def hasDynamicBearerAuth (cfg : AuthCfg) : Bool := truthy cfg.tokenModule

/-- JavaScript object spread `{...h, k: v}`: an existing key keeps its
position with the new value, a new key is appended. -/
def setHeader (h : Headers) (k v : Str) : Headers :=
  if (keysOf h).contains k then
    h.map (fun e => if e.1 = k then (e.1, v) else e)
  else h ++ [(k, v)]

/-- The `authMethod` tag of the envelope (second variant lines 587-591). -/
inductive AuthMethod where
  | basic
  | bearer
  | apikey
  | dynamicBearer
  | noneM
deriving DecidableEq

/-- The `authMethod` chain of the response envelope. -/
def authMethodOf (cfg : AuthCfg) : AuthMethod :=
  if hasBasicAuth cfg then .basic
  else if hasBearerAuth cfg then .bearer
  else if hasApiKeyAuth cfg then .apikey
  else if hasDynamicBearerAuth cfg then .dynamicBearer
  else .noneM

/-- The header-injection chain applied to the merged request headers
(second variant lines 557-579): `base64cred` is the encoded
`username:password` and `dynTok` the token resolved by the provider. -/
def applyAuthHeaders (cfg : AuthCfg) (base64cred dynTok : Str)
    (h : Headers) : Headers :=
  if hasBasicAuth cfg then
    setHeader h (str "Authorization") (str "Basic " ++ base64cred)
  else if hasBearerAuth cfg then
    setHeader h (str "Authorization") (str "Bearer " ++ cfg.bearer.getD [])
  else if hasApiKeyAuth cfg then
    setHeader h (cfg.apikeyHeaderName.getD []) (cfg.apikeyValue.getD [])
  else if hasDynamicBearerAuth cfg then
    setHeader h (str "Authorization") (str "Bearer " ++ dynTok)
  else h

/-- The header(s) contributed by a given mode, per the specification of
the credential-injection methods. -/
def modeHeaderOf (cfg : AuthCfg) (base64cred dynTok : Str) :
    AuthMethod → Option (Str × Str)
  | .basic => some (str "Authorization", str "Basic " ++ base64cred)
  | .bearer => some (str "Authorization", str "Bearer " ++ cfg.bearer.getD [])
  | .apikey => some (cfg.apikeyHeaderName.getD [], cfg.apikeyValue.getD [])
  | .dynamicBearer => some (str "Authorization", str "Bearer " ++ dynTok)
  | .noneM => none

/-- Claim C6: the header of exactly one authentication mode is added, chosen
by the fixed priority basic over bearer over apikey over dynamic over
none, the `authMethod` chain of the envelope reports that same mode, and an
unconfigured outcome adds no header at all. -/
theorem c6_auth_priority (cfg : AuthCfg) (base64cred dynTok : Str)
    (h : Headers) :
    applyAuthHeaders cfg base64cred dynTok h =
      (match modeHeaderOf cfg base64cred dynTok (authMethodOf cfg) with
       | some kv => setHeader h kv.1 kv.2
       | none => h) ∧
    (authMethodOf cfg = .basic ↔ hasBasicAuth cfg = true) ∧
    (authMethodOf cfg = .bearer ↔
      hasBasicAuth cfg = false ∧ hasBearerAuth cfg = true) ∧
    (authMethodOf cfg = .apikey ↔
      hasBasicAuth cfg = false ∧ hasBearerAuth cfg = false ∧
        hasApiKeyAuth cfg = true) ∧
    (authMethodOf cfg = .dynamicBearer ↔
      hasBasicAuth cfg = false ∧ hasBearerAuth cfg = false ∧
        hasApiKeyAuth cfg = false ∧ hasDynamicBearerAuth cfg = true) ∧
    (authMethodOf cfg = .noneM ↔
      hasBasicAuth cfg = false ∧ hasBearerAuth cfg = false ∧
        hasApiKeyAuth cfg = false ∧ hasDynamicBearerAuth cfg = false) := by
  unfold applyAuthHeaders authMethodOf modeHeaderOf
  by_cases h1 : hasBasicAuth cfg <;> by_cases h2 : hasBearerAuth cfg <;>
    by_cases h3 : hasApiKeyAuth cfg <;>
    by_cases h4 : hasDynamicBearerAuth cfg <;>
    simp [h1, h2, h3, h4]

/-!
The endpoint and host validator `isValidEndpointArgs` of src/index.ts
lines 367-465. The WHATWG `new URL` parser is an external capability and
is passed as a parameter producing protocol, hostname, origin and
pathname; every error below surfaces as an InvalidParams protocol error
in the source, the constructors merely distinguish which message. -/

/-- The distinct InvalidParams failures of the validator. -/
inductive VErr where
  | invalidArgs
  | inputTooLong
  | invalidChars
  | tooManyHeaders
  | restBaseUrlNotConfigured
  | fullUrlWithBaseUrl
  | invalidHostFormat
deriving DecidableEq

/-- The environment read by the validator. -/
structure EnvCfg where
  restBaseUrl : Option Str
  nodeEnvDevelopment : Bool
  allowPrivateNetworks : Bool
deriving DecidableEq

/-- The `test_request` arguments after JSON-level typing: `body` plays no
role in validation and is omitted. -/
structure RawArgs where
  method : Str
  endpoint : Str
  headers : Option Headers
  host : Option Str
deriving DecidableEq

/-- The output of the validator: the sanitized endpoint and the normalized
host override written back onto the argument object. -/
structure ValidArgs where
  method : Str
  endpoint : Str
  host : Option Str
deriving DecidableEq

/-- The components of a parsed WHATWG URL that the validator reads. -/
structure URLParts where
  protocol : Str
  hostname : Str
  origin : Str
  pathname : Str
deriving DecidableEq

/-- The control characters stripped by `validateAndSanitizeInput`
(ranges 00-08, 0B, 0C, 0E-1F and 7F). -/
def isStrippedControl (c : Char) : Bool :=
  (c.toNat ≤ 0x08) || (c.toNat == 0x0B) || (c.toNat == 0x0C) ||
    (0x0E ≤ c.toNat && c.toNat ≤ 0x1F) || (c.toNat == 0x7F)

/-- `validateAndSanitizeInput` (src/index.ts lines 341-359): length
check, optional allowed-character check, then control-character
stripping. -/
def validateAndSanitizeInput (input : Str) (maxLength : Nat)
    (pat : Option (Str → Bool)) : Except VErr Str :=
  if input.length > maxLength then .error .inputTooLong
  else
    match pat with
    | some p =>
        if p input then .ok (input.filter (fun c => !isStrippedControl c))
        else .error .invalidChars
    | none => .ok (input.filter (fun c => !isStrippedControl c))

/-- The `/^[a-zA-Z0-9_-]+$/` pattern for header names. -/
def headerKeyPat (k : Str) : Bool :=
  !k.isEmpty &&
    k.all (fun c => c.isAlpha || c.isDigit || (c == '_') || (c == '-'))

/-- The per-header validation loop of `isValidEndpointArgs`
(src/index.ts lines 393-400). -/
def checkHeadersList : Headers → Except VErr Unit
  | [] => .ok ()
  | (k, v) :: rest =>
      match validateAndSanitizeInput k 256 (some headerKeyPat) with
      | .error e => .error e
      | .ok _ =>
          match validateAndSanitizeInput v 8192 none with
          | .error e => .error e
          | .ok _ => checkHeadersList rest

/-- `CONFIG.URL_PATTERN` (src/index.ts line 28): a case-insensitive
`http://`, `https://` or `www.` head. -/
def isFullUrl (s : Str) : Bool :=
  (str "http://").isPrefixOf (lowerStr s) ||
    (str "https://").isPrefixOf (lowerStr s) ||
    (str "www.").isPrefixOf (lowerStr s)

/-- The private and loopback hostname checks of src/index.ts lines
433-440. -/
def isPrivateHostname (hn : Str) : Bool :=
  let l := lowerStr hn
  (l == str "localhost") || (l == str "127.0.0.1") ||
    (str "10.").isPrefixOf l || (str "192.168.").isPrefixOf l ||
    (str "172.").isPrefixOf l

/-- The trailing-slash strip of the parsed host path
(src/index.ts lines 450-455). -/
def rstripSlashes (s : Str) : Str :=
  (((s.reverse).dropWhile (fun c => c == '/')).reverse)

/-- The normalized host written back: `url.origin + url.pathname` with a
non-root trailing slash removed. -/
def normalizeHostUrl (u : URLParts) : Str :=
  if u.pathname ≠ str "/" ∧ (str "/").isSuffixOf u.pathname then
    u.origin ++ rstripSlashes u.pathname
  else u.origin ++ u.pathname

/-- The allowed HTTP methods. -/
def httpMethods : List Str :=
  [str "GET", str "POST", str "PUT", str "DELETE", str "PATCH"]

/-- `isValidEndpointArgs` (src/index.ts lines 367-465): a `false` return
and every thrown McpError surface as InvalidParams; the URL-shape policy
runs before the host override is even validated, and every failure inside
the host `try` block — including the private-network rejection — is
caught and re-thrown as the invalid-host-format message. -/
def isValidEndpointArgs (cfg : EnvCfg) (parseURL : Str → Option URLParts)
    (a : RawArgs) : Except VErr ValidArgs :=
  if (httpMethods.contains a.method) = false then .error .invalidArgs
  else
    match validateAndSanitizeInput a.endpoint 2048 none with
    | .error e => .error e
    | .ok endpoint =>
        match
          (match a.headers with
           | some hs =>
               if hs.length > 50 then Except.error VErr.tooManyHeaders
               else checkHeadersList hs
           | none => Except.ok ()) with
        | .error e => .error e
        | .ok _ =>
            if truthy cfg.restBaseUrl = false ∧ isFullUrl endpoint = false
            then .error .restBaseUrlNotConfigured
            else if truthy cfg.restBaseUrl = true ∧ isFullUrl endpoint = true
            then .error .fullUrlWithBaseUrl
            else
              match a.host with
              | none => .ok ⟨a.method, endpoint, none⟩
              | some hostRaw =>
                  match validateAndSanitizeInput hostRaw 2048 none with
                  | .error e => .error e
                  | .ok hostInput =>
                      match parseURL hostInput with
                      | none => .error .invalidHostFormat
                      | some u =>
                          if (u.protocol ≠ str "http:" ∧
                              u.protocol ≠ str "https:") then
                            .error .invalidHostFormat
                          else if isPrivateHostname u.hostname = true ∧
                              cfg.nodeEnvDevelopment = false ∧
                              cfg.allowPrivateNetworks = false then
                            .error .invalidHostFormat
                          else
                            .ok ⟨a.method, endpoint,
                              some (normalizeHostUrl u)⟩

/-- Claim C1 evaluated at the failing input: with no base origin
configured and a path endpoint, the validator rejects with the
REST_BASE_URL-not-configured InvalidParams error no matter what `host`
override is supplied and no matter how it would parse — the host branch
is unreachable, contradicting the claim (and the schema of the tool itself
description and the `host || REST_BASE_URL` resolution in the handler). -/
theorem c1_host_never_rescues_path (parseURL : Str → Option URLParts)
    (host : Option Str) :
    isValidEndpointArgs ⟨none, false, false⟩ parseURL
        ⟨str "GET", str "/users", none, host⟩ =
      .error .restBaseUrlNotConfigured := rfl

end McpRestApi
